import Mathlib

/-!
Verification of the network fact resolution subsystem of saltyorg/ansible-facts
(src/main.rs), shallowly embedded in Lean 4.

The embedding models:
* `validate_ip` — via a faithful translation of Rust std's `Ipv4Addr`/`Ipv6Addr`
  `FromStr` parsers (`core::net::parser`), which `ip.parse::<...>()` invokes;
* `fetch_ip_from_url` — as a pure function from a simulated network event
  (timeout / transport error / HTTP response) to the `Result<String, String>`
  the Rust future resolves to;
* `get_ip` — as a fold over the attempt results in completion order
  (`FuturesUnordered` yields results in completion order);
* the orchestrator in `main` (probe gating, output field construction);
* `has_valid_ipv6` / `has_global_ipv6_from_if_inet6` — the IPv6 capability probe;
* `sort_json_value` — recursive key sorting of JSON values, with
  `serde_json::Map` modelled as an insertion-ordered association list
  (the `preserve_order` representation) and `BTreeMap` insertion as ordered
  insertion with replacement.
-/

set_option maxHeartbeats 1000000

namespace AnsibleFacts

/-! ## Rust std IP address literal parsers (core::net::parser) -/

/-- The alphanumeric digit value of a character: `0`-`9` (codes 48-57),
`a`-`z` (97-122, value 10+), `A`-`Z` (65-90, value 10+). -/
def digitVal? (c : Char) : Option Nat :=
  if 48 ≤ c.toNat ∧ c.toNat ≤ 57 then some (c.toNat - 48)
  else if 97 ≤ c.toNat ∧ c.toNat ≤ 122 then some (c.toNat - 97 + 10)
  else if 65 ≤ c.toNat ∧ c.toNat ≤ 90 then some (c.toNat - 65 + 10)
  else none

/-- Rust `char::to_digit(radix)`: the digit value when it is below `radix`. -/
def charToDigit (radix : Nat) (c : Char) : Option Nat :=
  match digitVal? c with
  | some d => if d < radix then some d else none
  | none => none

/-- Digit-consuming loop of Rust `Parser::read_number`: consumes digits while they
parse in `radix`, failing on checked-arithmetic overflow past `maxVal` (u8 255 for
IPv4 octets, u16 65535 for IPv6 groups) or on exceeding `maxDigits`.
Returns (value, digit count, unconsumed rest). -/
def readNumberLoop (radix maxVal : Nat) (maxDigits : Option Nat) :
    Nat → Nat → List Char → Option (Nat × Nat × List Char)
  | result, count, [] => some (result, count, [])
  | result, count, c :: rest =>
    match charToDigit radix c with
    | none => some (result, count, c :: rest)
    | some d =>
      if maxVal < result * radix + d then none
      else
        match maxDigits with
        | some m =>
          if m < count + 1 then none
          else readNumberLoop radix maxVal maxDigits (result * radix + d) (count + 1) rest
        | none => readNumberLoop radix maxVal maxDigits (result * radix + d) (count + 1) rest

/-- Rust `Parser::read_number(radix, max_digits, allow_zero_prefix)` (atomic:
on failure the caller keeps the original input). -/
def readNumber (radix maxVal : Nat) (maxDigits : Option Nat) (allowZeroPrefix : Bool)
    (s : List Char) : Option (Nat × List Char) :=
  match readNumberLoop radix maxVal maxDigits 0 0 s with
  | none => none
  | some (result, count, rest) =>
    if count = 0 then none
    else if !allowZeroPrefix && decide (s.head? = some '0') && decide (1 < count) then none
    else some (result, rest)

/-- Rust `Parser::read_given_char`. -/
def readGivenChar (c : Char) : List Char → Option (List Char)
  | [] => none
  | x :: rest => if x = c then some rest else none

/-- An IPv4 address as four octet values. -/
structure Ipv4Quad where
  a : Nat
  b : Nat
  c : Nat
  d : Nat
deriving DecidableEq

/-- Rust `Parser::read_ipv4_addr`: four octet groups, `.`-separated, each a decimal
number ≤ 255 with at most 3 digits and no zero prefix. -/
def readIpv4Addr (s : List Char) : Option (Ipv4Quad × List Char) := do
  let (a, s) ← readNumber 10 255 (some 3) false s
  let s ← readGivenChar '.' s
  let (b, s) ← readNumber 10 255 (some 3) false s
  let s ← readGivenChar '.' s
  let (c, s) ← readNumber 10 255 (some 3) false s
  let s ← readGivenChar '.' s
  let (d, s) ← readNumber 10 255 (some 3) false s
  return (⟨a, b, c, d⟩, s)

/-- Rust `Parser::read_separator(':', i, read_ipv4_addr)`: a `:` is required
first when the group index is positive (atomic). -/
def readSepIpv4 (needSep : Bool) (s : List Char) : Option (Ipv4Quad × List Char) := do
  let s1 ← if needSep then readGivenChar ':' s else some s
  readIpv4Addr s1

/-- Rust `Parser::read_separator(':', i, read_number(16, Some(4), true))`. -/
def readSepGroup (needSep : Bool) (s : List Char) : Option (Nat × List Char) := do
  let s1 ← if needSep then readGivenChar ':' s else some s
  readNumber 16 65535 (some 4) true s1

/-- Rust `read_groups` from `Parser::read_ipv6_addr`, with `remaining` groups of
capacity left and `needSep` true when a `:` separator is required before the next
group (i.e. at index > 0). Before each group, while at least two slots remain, a
trailing embedded IPv4 address is attempted. Returns (groups read,
ended-with-IPv4 flag, unconsumed rest). -/
def readGroupsAux : Bool → Nat → List Char → List Nat × Bool × List Char
  | _, 0, s => ([], false, s)
  | needSep, remaining + 1, s =>
    match (if 1 ≤ remaining then readSepIpv4 needSep s else none) with
    | some (ip, rest) => ([ip.a * 256 + ip.b, ip.c * 256 + ip.d], true, rest)
    | none =>
      match readSepGroup needSep s with
      | some (g, rest) =>
        match readGroupsAux true remaining rest with
        | (gs, endV4, rest2) => (g :: gs, endV4, rest2)
      | none => ([], false, s)

/-- Rust `Parser::read_ipv6_addr`: head groups, then if fewer than 8, a `::`
(no embedded IPv4 allowed before it), then tail groups limited to
`8 - (head + 1)`. Returns the 8 groups (zeros filled in the gap). -/
def readIpv6Addr (s : List Char) : Option (List Nat × List Char) :=
  match readGroupsAux false 8 s with
  | (head, headV4, s1) =>
    if head.length = 8 then some (head, s1)
    else if headV4 then none
    else
      (readGivenChar ':' s1).bind fun s2 =>
        (readGivenChar ':' s2).bind fun s3 =>
          match readGroupsAux false (8 - (head.length + 1)) s3 with
          | (tail, _, s4) =>
            some (head ++ List.replicate (8 - head.length - tail.length) 0 ++ tail, s4)

/-- Rust `"...".parse::<Ipv4Addr>()`: the whole string must be consumed. -/
def parseIpv4 (s : String) : Option Ipv4Quad :=
  match readIpv4Addr s.toList with
  | some (ip, []) => some ip
  | _ => none

/-- Rust `"...".parse::<Ipv6Addr>()`: the whole string must be consumed. -/
def parseIpv6 (s : String) : Option (List Nat) :=
  match readIpv6Addr s.toList with
  | some (gs, []) => some gs
  | _ => none

/-- `validate_ip` from src/main.rs. -/
def validate_ip (ip : String) (is_ipv6 : Bool) : Bool :=
  if is_ipv6 then (parseIpv6 ip).isSome else (parseIpv4 ip).isSome

/-! ## Rust whitespace, trim, lines, split_whitespace -/

/-- Rust `char::is_whitespace` (Unicode White_Space code points). -/
def rustWhitespace (c : Char) : Bool :=
  decide ((9 ≤ c.toNat ∧ c.toNat ≤ 13) ∨ c.toNat = 32 ∨ c.toNat = 133 ∨ c.toNat = 160 ∨
    c.toNat = 5760 ∨ (8192 ≤ c.toNat ∧ c.toNat ≤ 8202) ∨ c.toNat = 8232 ∨
    c.toNat = 8233 ∨ c.toNat = 8239 ∨ c.toNat = 8287 ∨ c.toNat = 12288)

/-- Rust `str::trim`: strip leading and trailing whitespace. -/
def rustTrim (s : String) : String :=
  String.mk (((s.toList.dropWhile rustWhitespace).reverse.dropWhile rustWhitespace).reverse)

/-- Split a character list at every newline; yields one (possibly empty) piece
more than the number of newlines. -/
def splitNewline : List Char → List (List Char)
  | [] => [[]]
  | c :: rest =>
    if c = '\n' then [] :: splitNewline rest
    else
      match splitNewline rest with
      | [] => [[c]]
      | l :: ls => (c :: l) :: ls

/-- Strip one trailing carriage return. -/
def stripCR (l : List Char) : List Char :=
  match l.reverse with
  | '\r' :: rest => rest.reverse
  | _ => l

/-- Rust `str::lines`: split on `\n`, drop a final empty piece (trailing newline
optional), strip a `\r` from every `\n`-terminated line. -/
def rustLines (s : List Char) : List (List Char) :=
  match (splitNewline s).reverse with
  | [] => []
  | last :: revInit =>
    let init := revInit.reverse.map stripCR
    if last.isEmpty then init else init ++ [last]

/-- Worker for Rust `str::split_whitespace`: `acc` holds the current field
reversed. Empty fields are skipped. -/
def splitWsAux : List Char → List Char → List (List Char)
  | acc, [] => if acc.isEmpty then [] else [acc.reverse]
  | acc, c :: rest =>
    if rustWhitespace c then
      if acc.isEmpty then splitWsAux [] rest else acc.reverse :: splitWsAux [] rest
    else splitWsAux (c :: acc) rest

/-- Rust `str::split_whitespace` (as a list of fields). -/
def splitWs (l : List Char) : List (List Char) := splitWsAux [] l

/-! ## IPv6 capability probe -/

/-- The global-scope sentinel `"00"`. -/
def scope00 : List Char := ['0', '0']

/-- One iteration of the loop body of `has_global_ipv6_from_if_inet6`: the line
matches when it has at least six whitespace-separated fields and the fourth
equals `"00"`. -/
def lineHasGlobalScope (line : List Char) : Bool :=
  match splitWs line with
  | _ :: _ :: _ :: scope :: _ :: _ :: _ => decide (scope = scope00)
  | _ => false

/-- `has_global_ipv6_from_if_inet6` from src/main.rs (the loop returns true at
the first matching line; as a pure function this is `any`). -/
def has_global_ipv6_from_if_inet6 (content : String) : Bool :=
  (rustLines content.toList).any lineHasGlobalScope

/-- `has_valid_ipv6` from src/main.rs, with the result of
`std::fs::read_to_string("/proc/net/if_inet6")` passed in explicitly
(`.error e` carries the displayed I/O error). -/
def has_valid_ipv6 (readResult : Except String String) : Bool × Option String :=
  match readResult with
  | .ok content => (has_global_ipv6_from_if_inet6 content, none)
  | .error e => (false, some ("Error checking IPv6: " ++ e))

/-! ## fetch_ip_from_url and get_ip (the race) -/

/-- The `TIMEOUT` constant (seconds). -/
def TIMEOUT : Nat := 3

/-- What one HTTP attempt observes: overall timeout, a transport error from
`send()`, or a response with a status code and a body read that may itself
fail. -/
inductive FetchEvent where
  | timedOut
  | sendError (e : String)
  | gotResponse (status : Nat) (body : Except String String)

/-- reqwest `StatusCode::is_success()`. -/
def statusIsSuccess (status : Nat) : Bool :=
  decide (200 ≤ status ∧ status ≤ 299)

/-- `fetch_ip_from_url` from src/main.rs as a pure function of the simulated
network event. -/
def fetch_ip_from_url (url : String) (is_ipv6 : Bool) : FetchEvent → Except String String
  | .timedOut => .error ("Timeout after " ++ toString TIMEOUT ++ "s for " ++ url)
  | .sendError e => .error ("Request failed for " ++ url ++ ": " ++ e)
  | .gotResponse status body =>
    if !statusIsSuccess status then
      .error ("HTTP " ++ toString status ++ " received from " ++ url)
    else
      match body with
      | .error e => .error ("Failed to read response body from " ++ url ++ ": " ++ e)
      | .ok text =>
        let ip := rustTrim text
        if validate_ip ip is_ipv6 then .ok ip
        else
          .error ("Invalid " ++ (if is_ipv6 then "IPv6" else "IPv4") ++ " address '"
            ++ ip ++ "' received from " ++ url)

/-- Rust `[String]::join("; ")`. -/
def joinSep : List String → String
  | [] => ""
  | [e] => e
  | e :: f :: rest => e ++ "; " ++ joinSep (f :: rest)

/-- The `while let Some(result) = requests.next().await` loop of `get_ip`:
first `Ok` wins immediately, errors accumulate; when all completed, the
errors are joined (the empty-errors fallback is the code's own). -/
def raceLoop : List (Except String String) → List String → Option String × Option String
  | [], errors =>
    (none,
      some (if errors.isEmpty then "All requests failed with unknown errors"
            else joinSep errors))
  | .ok ip :: _, _ => (some ip, none)
  | .error e :: rest, errors => raceLoop rest (errors ++ [e])

/-- `get_ip` from src/main.rs. `completions` lists the (url, event) pairs in the
order the racing futures complete (`FuturesUnordered` yields in completion
order); it is empty exactly when `urls` is empty. -/
def get_ip (completions : List (String × FetchEvent)) (is_ipv6 : Bool) :
    Option String × Option String :=
  if completions.isEmpty then
    (none, some "All requests failed with unknown errors")
  else
    raceLoop (completions.map (fun p => fetch_ip_from_url p.1 is_ipv6 p.2)) []

/-! ## Orchestrator (the IP portion of main) -/

/-- The `ip` fields of the serialized output. -/
structure IpOutput where
  public_ip : String
  public_ipv6 : String
  error_ipv4 : Option String
  error_ipv6 : Option String
  failed_ipv4 : Bool
  failed_ipv6 : Bool
  ipv6_check_error : Option String
deriving DecidableEq

/-- The `ip_future` block plus the `failed_*` / `IpOutput` construction in
`main` (src/main.rs): probe result gates the IPv6 race; when absent the IPv6
pair is `(None, None)` and the v6 attempt list is never consulted. -/
def buildIpOutput (probe : Bool × Option String)
    (v4 v6 : List (String × FetchEvent)) : IpOutput :=
  let res :=
    if probe.1 then (get_ip v4 false, get_ip v6 true)
    else (get_ip v4 false, ((none : Option String), (none : Option String)))
  { public_ip := res.1.1.getD ""
    public_ipv6 := res.2.1.getD ""
    error_ipv4 := res.1.2
    error_ipv6 := res.2.2
    failed_ipv4 := res.1.1.isNone
    failed_ipv6 := res.2.1.isNone
    ipv6_check_error := probe.2 }

/-! ## Substring containment (for diagnostics inclusion) -/

/-- `startsWithL needle hay`: `needle` is an initial segment of `hay`. -/
def startsWithL : List Char → List Char → Bool
  | [], _ => true
  | _ :: _, [] => false
  | a :: as, b :: bs => a == b && startsWithL as bs

/-- `containsSubL needle hay`: `needle` occurs contiguously inside `hay`. -/
def containsSubL (needle : List Char) : List Char → Bool
  | [] => startsWithL needle []
  | c :: rest => startsWithL needle (c :: rest) || containsSubL needle rest

/-- Substring containment on strings. -/
def strContainsSub (hay needle : String) : Bool :=
  containsSubL needle.toList hay.toList

/-- The error message of a failed attempt, if any. -/
def errMsg? : Except String String → Option String
  | .error e => some e
  | .ok _ => none

/-- Whether an attempt result is a failure. -/
def isFailure : Except String String → Bool
  | .error _ => true
  | .ok _ => false

/-- The per-source diagnostics of a completion list, in completion order. -/
def diagnostics (completions : List (String × FetchEvent)) (is_ipv6 : Bool) : List String :=
  (completions.map (fun p => fetch_ip_from_url p.1 is_ipv6 p.2)).filterMap errMsg?

/-! ## Characters the IP parsers can consume -/

/-- Characters the IP literal parsers can consume. -/
def tokenChar (c : Char) : Bool :=
  (charToDigit 16 c).isSome || decide (c = '.') || decide (c = ':')

/-- `rest` is a suffix of `s` and the consumed prefix is all token characters. -/
def ConsumedTokens (s rest : List Char) : Prop :=
  ∃ pre, s = pre ++ rest ∧ ∀ x ∈ pre, tokenChar x = true

/-! ## sort_json_value -/

/-- `serde_json::Value`, with objects as insertion-ordered association lists
(the `preserve_order` `Map` representation) and numbers abstracted as integers
(`sort_json_value` passes every scalar through unchanged). -/
inductive Json where
  | null
  | bool (b : Bool)
  | num (n : Int)
  | str (s : String)
  | arr (xs : List Json)
  | obj (fields : List (String × Json))

/-- Lexicographic strict order on character lists by code point, which on
UTF-8 data coincides with the lexicographic byte order Rust's `String` `Ord`
uses. -/
def listStrLt : List Char → List Char → Bool
  | [], [] => false
  | [], _ :: _ => true
  | _ :: _, [] => false
  | a :: as, b :: bs =>
    if a.toNat < b.toNat then true
    else if b.toNat < a.toNat then false
    else listStrLt as bs

/-- Rust `String` `Ord`: lexicographic byte order. -/
def strLt (a b : String) : Bool := listStrLt a.toList b.toList

/-- `BTreeMap::insert` on an ascending-key association list: replace the value
on an equal key, otherwise insert in key order. -/
def insertSorted (key : String) (val : Json) : List (String × Json) → List (String × Json)
  | [] => [(key, val)]
  | (k, v) :: rest =>
    if strLt key k then (key, val) :: (k, v) :: rest
    else if key = k then (key, val) :: rest
    else (k, v) :: insertSorted key val rest

/-- The `for (key, value) in map { sorted.insert(key, ...) }` loop of
`sort_json_value`, inserting each pair of the iteration order into the
`BTreeMap`. -/
def insertAll (l : List (String × Json)) : List (String × Json) :=
  l.foldl (fun acc p => insertSorted p.1 p.2 acc) []

mutual

/-- `sort_json_value` from src/main.rs: objects are re-keyed through a
`BTreeMap` (values recursively sorted first, as in the loop body), arrays are
mapped in place, scalars pass through. -/
def sort_json_value : Json → Json
  | .null => .null
  | .bool b => .bool b
  | .num n => .num n
  | .str s => .str s
  | .arr xs => .arr (sortJsonList xs)
  | .obj fields => .obj (insertAll (sortJsonFields fields))
termination_by structural x => x

/-- The recursive mapping over array elements. -/
def sortJsonList : List Json → List Json
  | [] => []
  | x :: xs => sort_json_value x :: sortJsonList xs
termination_by structural l => l

/-- The recursive sorting of each field value (the loop body's
`sort_json_value(value)`). -/
def sortJsonFields : List (String × Json) → List (String × Json)
  | [] => []
  | p :: rest => (p.1, sort_json_value p.2) :: sortJsonFields rest
termination_by structural l => l

end

/-- No duplicates in a key list. -/
def nodupKeysB : List String → Bool
  | [] => true
  | k :: rest => !(decide (k ∈ rest)) && nodupKeysB rest

mutual

/-- Well-formedness of a value as a `serde_json::Value`: every object's key
list is duplicate-free (a `serde_json::Map` cannot hold duplicate keys). -/
def wfJson : Json → Bool
  | .null => true
  | .bool _ => true
  | .num _ => true
  | .str _ => true
  | .arr xs => wfJsonList xs
  | .obj fs => nodupKeysB (fs.map Prod.fst) && wfJsonFields fs
termination_by structural x => x

def wfJsonList : List Json → Bool
  | [] => true
  | x :: xs => wfJson x && wfJsonList xs
termination_by structural l => l

def wfJsonFields : List (String × Json) → Bool
  | [] => true
  | p :: rest => wfJson p.2 && wfJsonFields rest
termination_by structural l => l

end

/-- A key list is strictly ascending in byte order. -/
def strictSortedKeys : List String → Bool
  | [] => true
  | [_] => true
  | a :: b :: rest => strLt a b && strictSortedKeys (b :: rest)

mutual

/-- Every object in the value has its keys in strictly ascending
(lexicographic) order, recursively. -/
def objKeysSorted : Json → Bool
  | .null => true
  | .bool _ => true
  | .num _ => true
  | .str _ => true
  | .arr xs => objKeysSortedList xs
  | .obj fs => strictSortedKeys (fs.map Prod.fst) && objKeysSortedFields fs
termination_by structural x => x

def objKeysSortedList : List Json → Bool
  | [] => true
  | x :: xs => objKeysSorted x && objKeysSortedList xs
termination_by structural l => l

def objKeysSortedFields : List (String × Json) → Bool
  | [] => true
  | p :: rest => objKeysSorted p.2 && objKeysSortedFields rest
termination_by structural l => l

end

mutual

/-- Two values differ only in the insertion order of object keys: same
structure, arrays pointwise related in the same order, object field lists
pointwise related (same keys with related values) up to a permutation. -/
inductive KeyPermEq : Json → Json → Prop where
  | null : KeyPermEq Json.null Json.null
  | bool (b : Bool) : KeyPermEq (Json.bool b) (Json.bool b)
  | num (n : Int) : KeyPermEq (Json.num n) (Json.num n)
  | str (s : String) : KeyPermEq (Json.str s) (Json.str s)
  | arr {xs ys : List Json} : ArrPermEq xs ys → KeyPermEq (Json.arr xs) (Json.arr ys)
  | obj {fs hs gs : List (String × Json)} : FieldsPermEq fs hs → hs.Perm gs →
      KeyPermEq (Json.obj fs) (Json.obj gs)

/-- Pointwise `KeyPermEq` on lists (same length, same order). -/
inductive ArrPermEq : List Json → List Json → Prop where
  | nil : ArrPermEq [] []
  | cons {x y : Json} {xs ys : List Json} : KeyPermEq x y → ArrPermEq xs ys →
      ArrPermEq (x :: xs) (y :: ys)

/-- Pointwise relation on field lists: equal keys, `KeyPermEq` values. -/
inductive FieldsPermEq : List (String × Json) → List (String × Json) → Prop where
  | nil : FieldsPermEq [] []
  | cons {k : String} {v w : Json} {ps qs : List (String × Json)} : KeyPermEq v w →
      FieldsPermEq ps qs → FieldsPermEq ((k, v) :: ps) ((k, w) :: qs)

end

/-- Strict key order on fields. -/
def keyLt (p q : String × Json) : Prop := strLt p.1 q.1 = true

end AnsibleFacts

namespace AnsibleFacts

example : validate_ip "192.168.1.1" false = true := by decide
example : validate_ip "192.168.1.1" true = false := by decide
example : validate_ip "::1" true = true := by decide
example : validate_ip "::1" false = false := by decide
example : validate_ip "not-an-ip" false = false := by decide
example : validate_ip "not-an-ip" true = false := by decide
example : validate_ip "1.2.3.4 " false = false := by decide
example : validate_ip "2a01:4f9:c014:e6d9::1" true = true := by decide
example : validate_ip "1:2:3:4:5:6:1.2.3.4" true = true := by decide
example : validate_ip "01.2.3.4" false = false := by decide
example : validate_ip "256.2.3.4" false = false := by decide
example : validate_ip "1:2:3:4:5:6:7:8" true = true := by decide
example : validate_ip "1:2:3:4:5:6:7::" true = true := by decide
example : validate_ip "1::2::3" true = false := by decide
example : validate_ip "::" true = true := by decide

example :
    has_global_ipv6_from_if_inet6
      "fe800000000000000000000000000001 02 40 20 80 eth0\n2a0104f9c014e6d90000000000000001 02 40 00 80 eth0\n" = true := by
  decide

example :
    has_global_ipv6_from_if_inet6
      "fe800000000000000000000000000001 02 40 20 80 eth0\nfe800000000000000000000000000002 03 40 20 80 eth1\n" = false := by
  decide

example : has_global_ipv6_from_if_inet6 "not enough fields\n1234\n" = false := by decide

end AnsibleFacts

namespace AnsibleFacts

/-! ## Lemmas about the race loop -/

theorem raceLoop_append_errors (rs : List (Except String String))
    (h : ∀ r ∈ rs, isFailure r = true) (tail : List (Except String String))
    (errors : List String) :
    raceLoop (rs ++ tail) errors = raceLoop tail (errors ++ rs.filterMap errMsg?) := by
  induction rs generalizing errors with
  | nil => simp [List.filterMap]
  | cons r rs ih =>
    cases r with
    | ok v => exact absurd (h _ (List.mem_cons_self _ _)) (by simp [isFailure])
    | error e =>
      have htl : ∀ r ∈ rs, isFailure r = true := fun r hr => h r (List.mem_cons_of_mem _ hr)
      have step : raceLoop ((Except.error e :: rs) ++ tail) errors
          = raceLoop (rs ++ tail) (errors ++ [e]) := rfl
      rw [step, ih htl]
      simp [errMsg?, List.filterMap_cons, List.append_assoc]

theorem raceLoop_populates_exactly_one (rs : List (Except String String))
    (errors : List String) :
    (∃ a, raceLoop rs errors = (some a, none)) ∨
    (∃ e, raceLoop rs errors = (none, some e)) := by
  induction rs generalizing errors with
  | nil => exact Or.inr ⟨_, rfl⟩
  | cons r rs ih =>
    cases r with
    | ok v => exact Or.inl ⟨v, rfl⟩
    | error e => exact ih (errors ++ [e])

/-! ## Substring containment lemmas -/

theorem startsWithL_self_append (n v : List Char) : startsWithL n (n ++ v) = true := by
  induction n with
  | nil => simp [startsWithL]
  | cons c n ih => simp [startsWithL, ih]

theorem containsSubL_nil_needle (hay : List Char) : containsSubL [] hay = true := by
  cases hay with
  | nil => rfl
  | cons c rest => rfl

theorem containsSubL_decomp (u n v : List Char) : containsSubL n (u ++ n ++ v) = true := by
  induction u with
  | nil =>
    cases n with
    | nil => exact containsSubL_nil_needle v
    | cons c n' =>
      have step : containsSubL (c :: n') (([] : List Char) ++ (c :: n') ++ v)
          = (startsWithL (c :: n') ((c :: n') ++ v) || containsSubL (c :: n') (n' ++ v)) :=
        rfl
      rw [step, startsWithL_self_append, Bool.true_or]
  | cons c u ih =>
    have step : containsSubL n ((c :: u) ++ n ++ v)
        = (startsWithL n ((c :: u) ++ n ++ v) || containsSubL n (u ++ n ++ v)) := rfl
    rw [step, ih, Bool.or_true]

theorem joinSep_mem_decomp (l : List String) (m : String) (hm : m ∈ l) :
    ∃ u v, (joinSep l).data = u ++ m.data ++ v := by
  induction l with
  | nil => cases hm
  | cons e rest ih =>
    cases rest with
    | nil =>
      rcases List.mem_singleton.mp hm with rfl
      exact ⟨[], [], by simp [joinSep]⟩
    | cons f rest' =>
      rcases List.mem_cons.mp hm with rfl | hm'
      · refine ⟨[], ("; ".data ++ (joinSep (f :: rest')).data), ?_⟩
        show (m ++ "; " ++ joinSep (f :: rest')).data = _
        simp [String.data_append, List.append_assoc]
      · rcases ih hm' with ⟨u, v, hu⟩
        refine ⟨e.data ++ "; ".data ++ u, v, ?_⟩
        show (e ++ "; " ++ joinSep (f :: rest')).data = _
        simp [String.data_append, hu, List.append_assoc]

theorem strContainsSub_of_mem_joinSep (l : List String) (m : String) (hm : m ∈ l) :
    strContainsSub (joinSep l) m = true := by
  rcases joinSep_mem_decomp l m hm with ⟨u, v, hu⟩
  show containsSubL m.toList (joinSep l).toList = true
  have hu' : (joinSep l).toList = u ++ m.toList ++ v := hu
  rw [hu']
  exact containsSubL_decomp u m.toList v

/-! ## Claim theorems for the race and orchestrator -/

/-- C1: in a race over a non-empty completion-ordered list of attempts, if every
attempt completing before `w` fails and `w`'s attempt comes back as an HTTP
success whose body, after trimming, validates as a literal of the requested
family, then `get_ip` returns exactly `w`'s trimmed value with no error,
whatever the position of `w` and whatever the later completions are (they are
discarded). -/
theorem get_ip_first_validated_success_wins
    (pre rest : List (String × FetchEvent)) (url body : String) (status : Nat)
    (is6 : Bool)
    (hstatus : statusIsSuccess status = true)
    (hvalid : validate_ip (rustTrim body) is6 = true)
    (hpre : ∀ p ∈ pre, ∃ e, fetch_ip_from_url p.1 is6 p.2 = Except.error e) :
    get_ip (pre ++ (url, FetchEvent.gotResponse status (Except.ok body)) :: rest) is6
      = (some (rustTrim body), none) := by
  have hw : fetch_ip_from_url url is6 (FetchEvent.gotResponse status (Except.ok body))
      = Except.ok (rustTrim body) := by
    simp [fetch_ip_from_url, hstatus, hvalid]
  have hne : (pre ++ (url, FetchEvent.gotResponse status (Except.ok body)) :: rest).isEmpty
      = false := by
    simp
  unfold get_ip
  rw [hne]
  simp only [Bool.false_eq_true, if_false, List.map_append, List.map_cons]
  rw [hw, raceLoop_append_errors]
  · rfl
  · intro r hr
    rcases List.mem_map.mp hr with ⟨p, hp, rfl⟩
    rcases hpre p hp with ⟨e, he⟩
    simp [he, isFailure]

/-- C1 witness. -/
theorem get_ip_first_validated_success_wins_witness :
    get_ip [("https://a.example", FetchEvent.timedOut),
            ("https://b.example", FetchEvent.gotResponse 200 (Except.ok " 203.0.113.7\n")),
            ("https://c.example", FetchEvent.sendError "connection reset")] false
      = (some (rustTrim " 203.0.113.7\n"), none) :=
  get_ip_first_validated_success_wins
    [("https://a.example", FetchEvent.timedOut)]
    [("https://c.example", FetchEvent.sendError "connection reset")]
    "https://b.example" " 203.0.113.7\n" 200 false
    (by decide) (by decide)
    (by
      intro p hp
      rcases List.mem_singleton.mp hp with rfl
      exact ⟨_, rfl⟩)

/-- C2: when every attempt in a non-empty race fails, `get_ip` returns no
address and the single combined error obtained by joining the per-source
diagnostics, in completion order, with the separator "; "; that combined string
contains every individual diagnostic as a substring, and the multiset of
diagnostics is invariant under permutations of the completion order. -/
theorem get_ip_all_fail_combines_diagnostics
    (completions : List (String × FetchEvent)) (is6 : Bool)
    (hne : completions ≠ [])
    (hall : ∀ p ∈ completions, ∃ e, fetch_ip_from_url p.1 is6 p.2 = Except.error e) :
    get_ip completions is6 = (none, some (joinSep (diagnostics completions is6))) ∧
    (∀ m ∈ diagnostics completions is6,
      strContainsSub (joinSep (diagnostics completions is6)) m = true) ∧
    (∀ completions', completions.Perm completions' →
      (diagnostics completions is6).Perm (diagnostics completions' is6)) := by
  have hfail : ∀ r ∈ completions.map (fun p => fetch_ip_from_url p.1 is6 p.2),
      isFailure r = true := by
    intro r hr
    rcases List.mem_map.mp hr with ⟨p, hp, rfl⟩
    rcases hall p hp with ⟨e, he⟩
    simp [he, isFailure]
  refine ⟨?_, fun m hm => strContainsSub_of_mem_joinSep _ m hm, ?_⟩
  · have hne' : completions.isEmpty = false := by
      cases completions with
      | nil => exact absurd rfl hne
      | cons a l => rfl
    have hdne : (diagnostics completions is6).isEmpty = false := by
      cases hc : completions with
      | nil => exact absurd hc hne
      | cons a l =>
        rcases hall a (by rw [hc]; exact List.mem_cons_self _ _) with ⟨e, he⟩
        unfold diagnostics
        simp [he, errMsg?, List.filterMap_cons]
    unfold get_ip
    rw [hne']
    simp only [Bool.false_eq_true, if_false]
    have hstep := raceLoop_append_errors
      (completions.map (fun p => fetch_ip_from_url p.1 is6 p.2)) hfail [] []
    rw [List.append_nil] at hstep
    rw [hstep, List.nil_append]
    show (none,
        some (if (diagnostics completions is6).isEmpty then
          "All requests failed with unknown errors"
        else joinSep (diagnostics completions is6)))
      = (none, some (joinSep (diagnostics completions is6)))
    rw [hdne]
    rfl
  · intro completions' hperm
    exact (hperm.map _).filterMap _

/-- C2 witness. -/
theorem get_ip_all_fail_combines_diagnostics_witness :
    get_ip [("https://a.example", FetchEvent.timedOut),
            ("https://b.example", FetchEvent.gotResponse 500 (Except.ok "oops"))] false
      = (none, some (joinSep (diagnostics
          [("https://a.example", FetchEvent.timedOut),
           ("https://b.example", FetchEvent.gotResponse 500 (Except.ok "oops"))] false))) ∧
    (∀ m ∈ diagnostics [("https://a.example", FetchEvent.timedOut),
            ("https://b.example", FetchEvent.gotResponse 500 (Except.ok "oops"))] false,
      strContainsSub (joinSep (diagnostics
          [("https://a.example", FetchEvent.timedOut),
           ("https://b.example", FetchEvent.gotResponse 500 (Except.ok "oops"))] false)) m
        = true) ∧
    (∀ completions',
      List.Perm [("https://a.example", FetchEvent.timedOut),
            ("https://b.example", FetchEvent.gotResponse 500 (Except.ok "oops"))] completions' →
      (diagnostics [("https://a.example", FetchEvent.timedOut),
            ("https://b.example", FetchEvent.gotResponse 500 (Except.ok "oops"))] false).Perm
        (diagnostics completions' false)) :=
  get_ip_all_fail_combines_diagnostics
    [("https://a.example", FetchEvent.timedOut),
     ("https://b.example", FetchEvent.gotResponse 500 (Except.ok "oops"))] false
    (by simp)
    (by
      intro p hp
      rcases List.mem_cons.mp hp with rfl | hp'
      · exact ⟨_, rfl⟩
      · rcases List.mem_singleton.mp hp' with rfl
        exact ⟨_, rfl⟩)

/-- C4 counterexample: for an empty source list the code returns the fixed
message "All requests failed with unknown errors", which neither equals nor
contains the claimed "no sources configured" text. -/
theorem get_ip_empty_counterexample :
    get_ip [] false = (none, some "All requests failed with unknown errors") ∧
    strContainsSub "All requests failed with unknown errors" "no sources configured"
      = false := by
  exact ⟨rfl, by decide⟩

/-- C4 (amended): for an empty source list, `get_ip` returns immediately with
no address and the fixed failure message "All requests failed with unknown
errors", consulting no attempt outcome. -/
theorem get_ip_empty_sources (is6 : Bool) :
    get_ip [] is6 = (none, some "All requests failed with unknown errors") := rfl

/-- C7: every completed race yields exactly one of address / error: either
`(some address, none)` or `(none, some error)`; the empty-address-no-error
state is impossible. -/
theorem get_ip_exactly_one_populated (completions : List (String × FetchEvent))
    (is6 : Bool) :
    (∃ a, get_ip completions is6 = (some a, none)) ∨
    (∃ e, get_ip completions is6 = (none, some e)) := by
  unfold get_ip
  cases h : completions.isEmpty with
  | true => exact Or.inr ⟨_, rfl⟩
  | false =>
    simp only [Bool.false_eq_true, if_false]
    exact raceLoop_populates_exactly_one _ []

/-- C3: when the capability probe reports absent, the orchestrator synthesizes
the IPv6 result as address-absent and error-absent (`public_ipv6 = ""`,
`error_ipv6 = none`) with the derived `failed_ipv6` flag still true, never
consults the IPv6 attempts (the output is independent of them), and still
races IPv4 as usual. -/
theorem orchestrator_skips_ipv6_when_absent (chk : Option String)
    (v4 v6 v6' : List (String × FetchEvent)) :
    (buildIpOutput (false, chk) v4 v6).public_ipv6 = "" ∧
    (buildIpOutput (false, chk) v4 v6).error_ipv6 = none ∧
    (buildIpOutput (false, chk) v4 v6).failed_ipv6 = true ∧
    buildIpOutput (false, chk) v4 v6 = buildIpOutput (false, chk) v4 v6' ∧
    (buildIpOutput (false, chk) v4 v6).public_ip = (get_ip v4 false).1.getD "" ∧
    (buildIpOutput (false, chk) v4 v6).error_ipv4 = (get_ip v4 false).2 :=
  ⟨rfl, rfl, rfl, rfl, rfl, rfl⟩

/-- C9: when the interface-address table cannot be read, the probe returns
`present = false` with a diagnostic naming the read failure; the run goes on
(the IPv4 race is unaffected), IPv6 resolution is skipped (output independent
of the IPv6 attempts, `error_ipv6 = none`), and the diagnostic is surfaced in
the separate `ipv6_check_error` field. -/
theorem probe_read_failure_nonfatal (e : String)
    (v4 v6 v6' : List (String × FetchEvent)) :
    has_valid_ipv6 (Except.error e) = (false, some ("Error checking IPv6: " ++ e)) ∧
    (buildIpOutput (has_valid_ipv6 (Except.error e)) v4 v6).ipv6_check_error
      = some ("Error checking IPv6: " ++ e) ∧
    (buildIpOutput (has_valid_ipv6 (Except.error e)) v4 v6).error_ipv6 = none ∧
    (buildIpOutput (has_valid_ipv6 (Except.error e)) v4 v6).failed_ipv6 = true ∧
    buildIpOutput (has_valid_ipv6 (Except.error e)) v4 v6
      = buildIpOutput (has_valid_ipv6 (Except.error e)) v4 v6' ∧
    (buildIpOutput (has_valid_ipv6 (Except.error e)) v4 v6).error_ipv4
      = (get_ip v4 false).2 :=
  ⟨rfl, rfl, rfl, rfl, rfl, rfl⟩

end AnsibleFacts

namespace AnsibleFacts

/-! ## Claim theorem for the capability scanner -/

theorem lineHasGlobalScope_iff (line : List Char) :
    lineHasGlobalScope line = true ↔
    6 ≤ (splitWs line).length ∧ (splitWs line)[3]? = some scope00 := by
  unfold lineHasGlobalScope
  generalize splitWs line = fs
  match fs with
  | [] => simp
  | [a] => simp
  | [a, b] => simp
  | [a, b, c] => simp
  | [a, b, c, d] => simp
  | [a, b, c, d, e] => simp
  | a :: b :: c :: d :: e :: f :: rest =>
    simp only [List.length_cons, List.getElem?_cons_succ, List.getElem?_cons_zero,
      decide_eq_true_eq, Option.some.injEq]
    constructor
    · intro h
      exact ⟨by omega, h⟩
    · intro h
      exact h.2

/-- C5: the IPv6 capability scan returns true exactly when some line of the
input has at least six whitespace-separated fields with the fourth field equal
to "00"; lines with fewer fields are skipped rather than failing (the scan is
a total function of the text). -/
theorem has_global_ipv6_from_if_inet6_iff (content : String) :
    has_global_ipv6_from_if_inet6 content = true ↔
    ∃ line ∈ rustLines content.toList,
      6 ≤ (splitWs line).length ∧ (splitWs line)[3]? = some scope00 := by
  unfold has_global_ipv6_from_if_inet6
  simp only [List.any_eq_true, lineHasGlobalScope_iff]

end AnsibleFacts

namespace AnsibleFacts

/-! ## Every character consumed by the IP parsers is a digit, dot or colon -/

theorem consumedTokens_refl (s : List Char) : ConsumedTokens s s :=
  ⟨[], rfl, by simp⟩

theorem consumedTokens_trans {s t u : List Char}
    (h1 : ConsumedTokens s t) (h2 : ConsumedTokens t u) : ConsumedTokens s u := by
  rcases h1 with ⟨p1, rfl, ha1⟩
  rcases h2 with ⟨p2, h2e, ha2⟩
  refine ⟨p1 ++ p2, ?_, ?_⟩
  · rw [h2e, List.append_assoc]
  · intro x hx
    rcases List.mem_append.mp hx with h | h
    · exact ha1 x h
    · exact ha2 x h

theorem charToDigit_isSome_of_le {radix : Nat} (hr : radix ≤ 16) {c : Char}
    (h : (charToDigit radix c).isSome = true) : (charToDigit 16 c).isSome = true := by
  unfold charToDigit at h ⊢
  cases hd : digitVal? c with
  | none =>
    rw [hd] at h
    have h' : (none : Option Nat).isSome = true := h
    exact Bool.noConfusion h'
  | some d =>
    rw [hd] at h
    have h' : (if d < radix then some d else none).isSome = true := h
    have hlt : d < radix := by
      by_contra hge
      rw [if_neg hge] at h'
      exact Bool.noConfusion h'
    show (if d < 16 then some d else none).isSome = true
    rw [if_pos (show d < 16 by omega)]
    rfl

theorem tokenChar_of_digit {radix : Nat} (hr : radix ≤ 16) {c : Char}
    (h : (charToDigit radix c).isSome = true) : tokenChar c = true := by
  unfold tokenChar
  rw [charToDigit_isSome_of_le hr h]
  rfl

theorem tokenChar_dot : tokenChar '.' = true := by decide

theorem tokenChar_colon : tokenChar ':' = true := by decide

theorem readNumberLoop_consumed {radix maxVal : Nat} {maxDigits : Option Nat} :
    ∀ (s : List Char) (res cnt r c : Nat) (rest : List Char),
      readNumberLoop radix maxVal maxDigits res cnt s = some (r, c, rest) →
      ∃ pre, s = pre ++ rest ∧ ∀ x ∈ pre, (charToDigit radix x).isSome = true := by
  intro s
  induction s with
  | nil =>
    intro res cnt r c rest h
    have h2 : some (res, cnt, ([] : List Char)) = some (r, c, rest) := h
    simp only [Option.some.injEq, Prod.mk.injEq] at h2
    exact ⟨[], by rw [← h2.2.2]; rfl, by simp⟩
  | cons c' s' ih =>
    intro res cnt r c rest h
    unfold readNumberLoop at h
    cases hd : charToDigit radix c' with
    | none =>
      rw [hd] at h
      have h2 : some (res, cnt, c' :: s') = some (r, c, rest) := h
      simp only [Option.some.injEq, Prod.mk.injEq] at h2
      exact ⟨[], by rw [← h2.2.2]; rfl, by simp⟩
    | some d =>
      rw [hd] at h
      have h2 : (if maxVal < res * radix + d then none
          else
            match maxDigits with
            | some m =>
              if m < cnt + 1 then none
              else readNumberLoop radix maxVal maxDigits (res * radix + d) (cnt + 1) s'
            | none => readNumberLoop radix maxVal maxDigits (res * radix + d) (cnt + 1) s')
          = some (r, c, rest) := h
      by_cases hov : maxVal < res * radix + d
      · rw [if_pos hov] at h2
        exact Option.noConfusion h2
      · rw [if_neg hov] at h2
        have hrec : readNumberLoop radix maxVal maxDigits (res * radix + d) (cnt + 1) s'
            = some (r, c, rest) := by
          cases maxDigits with
          | some m =>
            have h3 : (if m < cnt + 1 then none
                else readNumberLoop radix maxVal (some m) (res * radix + d) (cnt + 1) s')
                = some (r, c, rest) := h2
            by_cases hm : m < cnt + 1
            · rw [if_pos hm] at h3
              exact Option.noConfusion h3
            · rw [if_neg hm] at h3
              exact h3
          | none => exact h2
        rcases ih _ _ _ _ _ hrec with ⟨pre, hpre, hall⟩
        refine ⟨c' :: pre, by rw [hpre]; rfl, ?_⟩
        intro x hx
        rcases List.mem_cons.mp hx with rfl | hx'
        · rw [hd]; rfl
        · exact hall x hx'

theorem readNumber_consumed {radix maxVal : Nat} {maxDigits : Option Nat} {azp : Bool}
    {s : List Char} {v : Nat} {rest : List Char} (hr : radix ≤ 16)
    (h : readNumber radix maxVal maxDigits azp s = some (v, rest)) :
    ConsumedTokens s rest := by
  unfold readNumber at h
  cases hl : readNumberLoop radix maxVal maxDigits 0 0 s with
  | none =>
    rw [hl] at h
    exact Option.noConfusion h
  | some t =>
    obtain ⟨r', c', rest'⟩ := t
    rw [hl] at h
    have h2 : (if c' = 0 then none
        else if !azp && decide (s.head? = some '0') && decide (1 < c') then none
        else some (r', rest')) = some (v, rest) := h
    by_cases hc0 : c' = 0
    · rw [if_pos hc0] at h2
      exact Option.noConfusion h2
    · rw [if_neg hc0] at h2
      cases hz : (!azp && decide (s.head? = some '0') && decide (1 < c')) with
      | true =>
        rw [hz, if_pos rfl] at h2
        exact Option.noConfusion h2
      | false =>
        rw [hz] at h2
        have h3 : some (r', rest') = some (v, rest) := by
          rw [← h2]
          rw [if_neg (by simp)]
        simp only [Option.some.injEq, Prod.mk.injEq] at h3
        rcases readNumberLoop_consumed s 0 0 r' c' rest' hl with ⟨pre, hpre, hall⟩
        rw [← h3.2]
        exact ⟨pre, hpre, fun x hx => tokenChar_of_digit hr (hall x hx)⟩

theorem readGivenChar_eq {ch : Char} {s rest : List Char}
    (h : readGivenChar ch s = some rest) : s = ch :: rest := by
  cases s with
  | nil => exact Option.noConfusion h
  | cons x s' =>
    have h2 : (if x = ch then some s' else none) = some rest := h
    by_cases hx : x = ch
    · rw [if_pos hx] at h2
      rw [hx, Option.some.inj h2]
    · rw [if_neg hx] at h2
      exact Option.noConfusion h2

theorem consumedTokens_givenChar {ch : Char} {s rest : List Char}
    (hch : tokenChar ch = true) (h : readGivenChar ch s = some rest) :
    ConsumedTokens s rest := by
  rw [readGivenChar_eq h]
  refine ⟨[ch], rfl, ?_⟩
  intro x hx
  rcases List.mem_singleton.mp hx with rfl
  exact hch

theorem readIpv4Addr_consumed {s : List Char} {q : Ipv4Quad} {rest : List Char}
    (h : readIpv4Addr s = some (q, rest)) : ConsumedTokens s rest := by
  unfold readIpv4Addr at h
  simp only [Option.pure_def, Option.bind_eq_bind, Option.bind_eq_some, Option.some.injEq,
    Prod.mk.injEq] at h
  rcases h with ⟨⟨a, s1⟩, h1, ⟨s2, h2, ⟨⟨b, s3⟩, h3, ⟨s4, h4, ⟨⟨c, s5⟩, h5,
    ⟨s6, h6, ⟨⟨d, s7⟩, h7, hfin⟩⟩⟩⟩⟩⟩⟩
  rw [← hfin.2]
  exact consumedTokens_trans (readNumber_consumed (by omega) h1)
    (consumedTokens_trans (consumedTokens_givenChar tokenChar_dot h2)
      (consumedTokens_trans (readNumber_consumed (by omega) h3)
        (consumedTokens_trans (consumedTokens_givenChar tokenChar_dot h4)
          (consumedTokens_trans (readNumber_consumed (by omega) h5)
            (consumedTokens_trans (consumedTokens_givenChar tokenChar_dot h6)
              (readNumber_consumed (by omega) h7))))))

theorem readSepIpv4_consumed {needSep : Bool} {s : List Char} {ip : Ipv4Quad}
    {rest : List Char} (h : readSepIpv4 needSep s = some (ip, rest)) :
    ConsumedTokens s rest := by
  cases needSep with
  | false => exact readIpv4Addr_consumed h
  | true =>
    have h3 : (readGivenChar ':' s).bind (fun s1 => readIpv4Addr s1) = some (ip, rest) := h
    cases hg : readGivenChar ':' s with
    | none =>
      rw [hg] at h3
      exact Option.noConfusion h3
    | some s1 =>
      rw [hg] at h3
      have h4 : readIpv4Addr s1 = some (ip, rest) := h3
      exact consumedTokens_trans (consumedTokens_givenChar tokenChar_colon hg)
        (readIpv4Addr_consumed h4)

theorem readSepGroup_consumed {needSep : Bool} {s : List Char} {g : Nat}
    {rest : List Char} (h : readSepGroup needSep s = some (g, rest)) :
    ConsumedTokens s rest := by
  cases needSep with
  | false => exact readNumber_consumed (by omega) h
  | true =>
    have h3 : (readGivenChar ':' s).bind (fun s1 => readNumber 16 65535 (some 4) true s1)
        = some (g, rest) := h
    cases hg : readGivenChar ':' s with
    | none =>
      rw [hg] at h3
      exact Option.noConfusion h3
    | some s1 =>
      rw [hg] at h3
      have h4 : readNumber 16 65535 (some 4) true s1 = some (g, rest) := h3
      exact consumedTokens_trans (consumedTokens_givenChar tokenChar_colon hg)
        (readNumber_consumed (by omega) h4)

theorem readGroupsAux_consumed :
    ∀ (remaining : Nat) (needSep : Bool) (s : List Char),
      ConsumedTokens s (readGroupsAux needSep remaining s).2.2 := by
  intro remaining
  induction remaining with
  | zero => intro needSep s; exact consumedTokens_refl s
  | succ rem ih =>
    intro needSep s
    cases hv4 : (if 1 ≤ rem then readSepIpv4 needSep s else none) with
    | some t =>
      obtain ⟨ip, rest⟩ := t
      have hgoal : (readGroupsAux needSep (rem + 1) s).2.2 = rest := by
        unfold readGroupsAux
        rw [hv4]
      rw [hgoal]
      have hv4' : readSepIpv4 needSep s = some (ip, rest) := by
        by_cases hge : 1 ≤ rem
        · rw [if_pos hge] at hv4; exact hv4
        · rw [if_neg hge] at hv4; exact Option.noConfusion hv4
      exact readSepIpv4_consumed hv4'
    | none =>
      cases hg : readSepGroup needSep s with
      | some t =>
        obtain ⟨g, rest⟩ := t
        cases hrec : readGroupsAux true rem rest with
        | mk gs t2 =>
          obtain ⟨endV4, rest2⟩ := t2
          have hgoal : (readGroupsAux needSep (rem + 1) s).2.2 = rest2 := by
            unfold readGroupsAux
            rw [hv4, hg]
            show (match readGroupsAux true rem rest with
              | (gs, endV4, rest2) => (g :: gs, endV4, rest2)).2.2 = rest2
            rw [hrec]
          rw [hgoal]
          have hr2 := ih true rest
          rw [hrec] at hr2
          exact consumedTokens_trans (readSepGroup_consumed hg) hr2
      | none =>
        have hgoal : (readGroupsAux needSep (rem + 1) s).2.2 = s := by
          unfold readGroupsAux
          rw [hv4, hg]
        rw [hgoal]
        exact consumedTokens_refl s

theorem readIpv6Addr_consumed {s : List Char} {gs : List Nat} {rest : List Char}
    (h : readIpv6Addr s = some (gs, rest)) : ConsumedTokens s rest := by
  cases hhead : readGroupsAux false 8 s with
  | mk head t1 =>
    obtain ⟨headV4, s1⟩ := t1
    unfold readIpv6Addr at h
    rw [hhead] at h
    have hcons1 : ConsumedTokens s s1 := by
      have hh := readGroupsAux_consumed 8 false s
      rw [hhead] at hh
      exact hh
    have h2 : (if head.length = 8 then some (head, s1)
        else if headV4 = true then none
        else
          (readGivenChar ':' s1).bind fun s2 =>
            (readGivenChar ':' s2).bind fun s3 =>
              match readGroupsAux false (8 - (head.length + 1)) s3 with
              | (tail, _, s4) =>
                some (head ++ List.replicate (8 - head.length - tail.length) 0 ++ tail, s4))
        = some (gs, rest) := h
    by_cases hlen : head.length = 8
    · rw [if_pos hlen] at h2
      simp only [Option.some.injEq, Prod.mk.injEq] at h2
      rw [← h2.2]
      exact hcons1
    · rw [if_neg hlen] at h2
      by_cases hpv4 : headV4 = true
      · rw [if_pos hpv4] at h2
        exact Option.noConfusion h2
      · rw [if_neg hpv4] at h2
        simp only [Option.bind_eq_some] at h2
        rcases h2 with ⟨s2, hg2, ⟨s3, hg3, h4⟩⟩
        cases htail : readGroupsAux false (8 - (head.length + 1)) s3 with
        | mk tail t2 =>
          obtain ⟨endV4, s4⟩ := t2
          rw [htail] at h4
          have h5 : some (head ++ List.replicate (8 - head.length - tail.length) 0 ++ tail,
              s4) = some (gs, rest) := h4
          simp only [Option.some.injEq, Prod.mk.injEq] at h5
          have hcons4 : ConsumedTokens s3 s4 := by
            have ht := readGroupsAux_consumed (8 - (head.length + 1)) false s3
            rw [htail] at ht
            exact ht
          rw [← h5.2]
          exact consumedTokens_trans hcons1
            (consumedTokens_trans (consumedTokens_givenChar tokenChar_colon hg2)
              (consumedTokens_trans (consumedTokens_givenChar tokenChar_colon hg3) hcons4))

theorem validate_ip_tokens {s : String} {f : Bool} (h : validate_ip s f = true) :
    ∀ x ∈ s.toList, tokenChar x = true := by
  unfold validate_ip at h
  cases f with
  | false =>
    have h1 : (parseIpv4 s).isSome = true := h
    unfold parseIpv4 at h1
    cases hp : readIpv4Addr s.toList with
    | none =>
      rw [hp] at h1
      exact absurd h1 (by simp)
    | some t =>
      obtain ⟨q, rest⟩ := t
      rw [hp] at h1
      cases rest with
      | cons y ys =>
        have h2 : (none : Option Ipv4Quad).isSome = true := h1
        exact absurd h2 (by simp)
      | nil =>
        rcases readIpv4Addr_consumed hp with ⟨pre, hpre, hall⟩
        intro x hx
        apply hall
        rw [hpre] at hx
        simpa using hx
  | true =>
    have h1 : (parseIpv6 s).isSome = true := h
    unfold parseIpv6 at h1
    cases hp : readIpv6Addr s.toList with
    | none =>
      rw [hp] at h1
      exact absurd h1 (by simp)
    | some t =>
      obtain ⟨gs, rest⟩ := t
      rw [hp] at h1
      cases rest with
      | cons y ys =>
        have h2 : (none : Option (List Nat)).isSome = true := h1
        exact absurd h2 (by simp)
      | nil =>
        rcases readIpv6Addr_consumed hp with ⟨pre, hpre, hall⟩
        intro x hx
        apply hall
        rw [hpre] at hx
        simpa using hx

theorem charToDigit16_mem {c : Char} (h : (charToDigit 16 c).isSome = true) :
    (48 ≤ c.toNat ∧ c.toNat ≤ 57) ∨ (97 ≤ c.toNat ∧ c.toNat ≤ 102) ∨
    (65 ≤ c.toNat ∧ c.toNat ≤ 70) := by
  unfold charToDigit digitVal? at h
  by_cases h1 : 48 ≤ c.toNat ∧ c.toNat ≤ 57
  · exact Or.inl h1
  · rw [if_neg h1] at h
    by_cases h2 : 97 ≤ c.toNat ∧ c.toNat ≤ 122
    · rw [if_pos h2] at h
      have h' : (if c.toNat - 97 + 10 < 16 then some (c.toNat - 97 + 10) else none).isSome
          = true := h
      by_cases hlt : c.toNat - 97 + 10 < 16
      · exact Or.inr (Or.inl ⟨h2.1, by omega⟩)
      · rw [if_neg hlt] at h'
        exact Bool.noConfusion h'
    · rw [if_neg h2] at h
      by_cases h3 : 65 ≤ c.toNat ∧ c.toNat ≤ 90
      · rw [if_pos h3] at h
        have h' : (if c.toNat - 65 + 10 < 16 then some (c.toNat - 65 + 10) else none).isSome
            = true := h
        by_cases hlt : c.toNat - 65 + 10 < 16
        · exact Or.inr (Or.inr ⟨h3.1, by omega⟩)
        · rw [if_neg hlt] at h'
          exact Bool.noConfusion h'
      · rw [if_neg h3] at h
        exact absurd h (by simp)

theorem tokenChar_eq_false_of_whitespace {c : Char} (h : rustWhitespace c = true) :
    tokenChar c = false := by
  have hw := of_decide_eq_true h
  unfold tokenChar
  cases hd : (charToDigit 16 c).isSome with
  | true =>
    exfalso
    have hmem := charToDigit16_mem hd
    omega
  | false =>
    simp only [Bool.false_or]
    cases hdot : decide (c = '.') with
    | true =>
      exfalso
      have hc : c = '.' := of_decide_eq_true hdot
      subst hc
      exact absurd h (by decide)
    | false =>
      simp only [Bool.false_or]
      cases hcol : decide (c = ':') with
      | true =>
        exfalso
        have hc : c = ':' := of_decide_eq_true hcol
        subst hc
        exact absurd h (by decide)
      | false => rfl

theorem toList_push (s : String) (c : Char) : (s.push c).toList = s.toList ++ [c] := rfl

/-- C8: `validate_ip` is a total function that accepts "192.168.1.1" as IPv4
and rejects it as IPv6, accepts "::1" as IPv6 and rejects it as IPv4, rejects
"not-an-ip" as both, and never accepts a candidate ending in (Rust) whitespace,
for either family. -/
theorem validate_ip_spec :
    validate_ip "192.168.1.1" false = true ∧
    validate_ip "192.168.1.1" true = false ∧
    validate_ip "::1" true = true ∧
    validate_ip "::1" false = false ∧
    validate_ip "not-an-ip" false = false ∧
    validate_ip "not-an-ip" true = false ∧
    (∀ (s : String) (c : Char) (f : Bool), rustWhitespace c = true →
      validate_ip (s.push c) f = false) := by
  refine ⟨by decide, by decide, by decide, by decide, by decide, by decide, ?_⟩
  intro s c f hws
  cases hval : validate_ip (s.push c) f with
  | false => rfl
  | true =>
    exfalso
    have htok := validate_ip_tokens hval c
      (by rw [toList_push]; exact List.mem_append_right _ (List.mem_singleton_self c))
    rw [tokenChar_eq_false_of_whitespace hws] at htok
    exact Bool.false_ne_true htok

/-- C8 witness. -/
theorem validate_ip_spec_witness :
    rustWhitespace ' ' = true ∧ validate_ip ("1.2.3.4".push ' ') false = false :=
  ⟨by decide, validate_ip_spec.2.2.2.2.2.2 "1.2.3.4" ' ' false (by decide)⟩

end AnsibleFacts

namespace AnsibleFacts

example :
    sort_json_value (Json.obj [("z", Json.num 1),
      ("a", Json.obj [("d", Json.num 2), ("b", Json.num 3)]),
      ("m", Json.arr [Json.obj [("k", Json.num 1), ("c", Json.num 2)]])])
    = Json.obj [("a", Json.obj [("b", Json.num 3), ("d", Json.num 2)]),
      ("m", Json.arr [Json.obj [("c", Json.num 2), ("k", Json.num 1)]]),
      ("z", Json.num 1)] := rfl

end AnsibleFacts

namespace AnsibleFacts

/-! ## Order facts for the byte-order comparison -/

theorem char_eq_of_toNat_eq {a b : Char} (h : a.toNat = b.toNat) : a = b := by
  unfold Char.toNat at h
  apply Char.eq_of_val_eq
  apply UInt32.toNat.inj h

theorem listStrLt_irrefl : ∀ l : List Char, listStrLt l l = false
  | [] => rfl
  | a :: as => by
    show (if a.toNat < a.toNat then true
        else if a.toNat < a.toNat then false else listStrLt as as) = false
    rw [if_neg (by omega), if_neg (by omega)]
    exact listStrLt_irrefl as

theorem listStrLt_trans : ∀ a b c : List Char,
    listStrLt a b = true → listStrLt b c = true → listStrLt a c = true := by
  intro a
  induction a with
  | nil =>
    intro b c hab hbc
    cases c with
    | nil =>
      cases b with
      | nil => exact hab
      | cons y ys => exact Bool.noConfusion hbc
    | cons y ys => rfl
  | cons a1 as ih =>
    intro b c hab hbc
    cases b with
    | nil => exact Bool.noConfusion hab
    | cons b1 bs =>
      cases c with
      | nil => exact Bool.noConfusion hbc
      | cons c1 cs =>
        have hab' : (if a1.toNat < b1.toNat then true
            else if b1.toNat < a1.toNat then false else listStrLt as bs) = true := hab
        have hbc' : (if b1.toNat < c1.toNat then true
            else if c1.toNat < b1.toNat then false else listStrLt bs cs) = true := hbc
        show (if a1.toNat < c1.toNat then true
            else if c1.toNat < a1.toNat then false else listStrLt as cs) = true
        by_cases h1 : a1.toNat < b1.toNat
        · by_cases h2 : b1.toNat < c1.toNat
          · rw [if_pos (by omega)]
          · rw [if_neg h2] at hbc'
            by_cases h3 : c1.toNat < b1.toNat
            · rw [if_pos h3] at hbc'
              exact Bool.noConfusion hbc'
            · rw [if_pos (by omega)]
        · rw [if_neg h1] at hab'
          by_cases h4 : b1.toNat < a1.toNat
          · rw [if_pos h4] at hab'
            exact Bool.noConfusion hab'
          · rw [if_neg h4] at hab'
            by_cases h2 : b1.toNat < c1.toNat
            · rw [if_pos (by omega)]
            · rw [if_neg h2] at hbc'
              by_cases h3 : c1.toNat < b1.toNat
              · rw [if_pos h3] at hbc'
                exact Bool.noConfusion hbc'
              · rw [if_neg h3] at hbc'
                rw [if_neg (by omega), if_neg (by omega)]
                exact ih bs cs hab' hbc'

theorem listStrLt_eq_of_not : ∀ a b : List Char,
    listStrLt a b = false → listStrLt b a = false → a = b
  | [], [], _, _ => rfl
  | [], _ :: _, h1, _ => Bool.noConfusion h1
  | _ :: _, [], _, h2 => Bool.noConfusion h2
  | a :: as, b :: bs, h1, h2 => by
    have h1' : (if a.toNat < b.toNat then true
        else if b.toNat < a.toNat then false else listStrLt as bs) = false := h1
    have h2' : (if b.toNat < a.toNat then true
        else if a.toNat < b.toNat then false else listStrLt bs as) = false := h2
    by_cases hab : a.toNat < b.toNat
    · rw [if_pos hab] at h1'
      exact Bool.noConfusion h1'
    · by_cases hba : b.toNat < a.toNat
      · rw [if_pos hba] at h2'
        exact Bool.noConfusion h2'
      · rw [if_neg hab, if_neg hba] at h1'
        rw [if_neg hba, if_neg hab] at h2'
        have hchar : a = b := char_eq_of_toNat_eq (by omega)
        rw [hchar, listStrLt_eq_of_not as bs h1' h2']

theorem listStrLt_asymm {a b : List Char} (h : listStrLt a b = true) :
    listStrLt b a = false := by
  cases hba : listStrLt b a
  · rfl
  · have := listStrLt_trans a b a h hba
    rw [listStrLt_irrefl] at this
    exact Bool.noConfusion this

theorem strLt_trans {a b c : String} (h1 : strLt a b = true) (h2 : strLt b c = true) :
    strLt a c = true := listStrLt_trans _ _ _ h1 h2

theorem strLt_irrefl (a : String) : strLt a a = false := listStrLt_irrefl _

theorem strLt_asymm {a b : String} (h : strLt a b = true) : strLt b a = false :=
  listStrLt_asymm h

theorem strLt_eq_of_not {a b : String} (h1 : strLt a b = false)
    (h2 : strLt b a = false) : a = b := by
  have h3 : a.toList = b.toList := listStrLt_eq_of_not _ _ h1 h2
  cases a with
  | mk da =>
    cases b with
    | mk db =>
      have : da = db := h3
      rw [this]

theorem keyLt_antisymm : IsAntisymm (String × Json) keyLt := by
  constructor
  intro p q h1 h2
  have h1' : strLt p.1 q.1 = true := h1
  have h2' : strLt q.1 p.1 = true := h2
  have h3 := strLt_asymm h2'
  rw [h1'] at h3
  exact Bool.noConfusion h3

/-! ## Insertion into the BTreeMap preserves content and yields sorted keys -/

theorem mem_insertSorted {p : String × Json} {k : String} {v : Json} :
    ∀ l, p ∈ insertSorted k v l → p = (k, v) ∨ p ∈ l := by
  intro l
  induction l with
  | nil =>
    intro hp
    rcases List.mem_singleton.mp hp with rfl
    exact Or.inl rfl
  | cons q rest ih =>
    obtain ⟨qk, qv⟩ := q
    intro hp
    unfold insertSorted at hp
    by_cases h1 : strLt k qk = true
    · rw [if_pos h1] at hp
      rcases List.mem_cons.mp hp with rfl | hp'
      · exact Or.inl rfl
      · exact Or.inr hp'
    · rw [if_neg h1] at hp
      by_cases h2 : k = qk
      · rw [if_pos h2] at hp
        rcases List.mem_cons.mp hp with rfl | hp'
        · exact Or.inl rfl
        · exact Or.inr (List.mem_cons_of_mem _ hp')
      · rw [if_neg h2] at hp
        rcases List.mem_cons.mp hp with rfl | hp'
        · exact Or.inr (List.mem_cons_self _ _)
        · rcases ih hp' with h | h
          · exact Or.inl h
          · exact Or.inr (List.mem_cons_of_mem _ h)

theorem insertSorted_pairwise {k : String} {v : Json} :
    ∀ l, List.Pairwise keyLt l → List.Pairwise keyLt (insertSorted k v l) := by
  intro l
  induction l with
  | nil => intro _; exact List.pairwise_singleton _ _
  | cons q rest ih =>
    obtain ⟨qk, qv⟩ := q
    intro hp
    rcases List.pairwise_cons.mp hp with ⟨hq, hrest⟩
    unfold insertSorted
    by_cases h1 : strLt k qk = true
    · rw [if_pos h1]
      refine List.pairwise_cons.mpr ⟨?_, hp⟩
      intro q' hq'
      rcases List.mem_cons.mp hq' with rfl | hq''
      · exact h1
      · exact strLt_trans h1 (hq q' hq'')
    · rw [if_neg h1]
      by_cases h2 : k = qk
      · rw [if_pos h2]
        refine List.pairwise_cons.mpr ⟨?_, hrest⟩
        intro q' hq'
        show strLt k q'.1 = true
        rw [h2]
        exact hq q' hq'
      · rw [if_neg h2]
        refine List.pairwise_cons.mpr ⟨?_, ih hrest⟩
        intro q' hq'
        rcases mem_insertSorted _ hq' with rfl | hq''
        · show strLt qk k = true
          have h1' : strLt k qk = false := by
            cases hb : strLt k qk
            · rfl
            · exact absurd hb h1
          cases h3 : strLt qk k
          · exact absurd (strLt_eq_of_not h1' h3) h2
          · rfl
        · exact hq q' hq''

theorem pairwise_foldl_insert :
    ∀ (l acc : List (String × Json)), List.Pairwise keyLt acc →
      List.Pairwise keyLt (List.foldl (fun acc p => insertSorted p.1 p.2 acc) acc l) := by
  intro l
  induction l with
  | nil => intro acc h; exact h
  | cons p rest ih =>
    intro acc h
    exact ih _ (insertSorted_pairwise _ h)

theorem insertAll_pairwise (l : List (String × Json)) :
    List.Pairwise keyLt (insertAll l) :=
  pairwise_foldl_insert l [] List.Pairwise.nil

theorem mem_foldl_insert :
    ∀ (l acc : List (String × Json)) (p : String × Json),
      p ∈ List.foldl (fun acc q => insertSorted q.1 q.2 acc) acc l → p ∈ acc ∨ p ∈ l := by
  intro l
  induction l with
  | nil =>
    intro acc p hp
    exact Or.inl hp
  | cons q rest ih =>
    intro acc p hp
    rcases ih _ p hp with h | h
    · rcases mem_insertSorted _ h with rfl | h'
      · exact Or.inr (by simp)
      · exact Or.inl h'
    · exact Or.inr (List.mem_cons_of_mem _ h)

theorem mem_insertAll {l : List (String × Json)} {p : String × Json}
    (hp : p ∈ insertAll l) : p ∈ l := by
  rcases mem_foldl_insert l [] p hp with h | h
  · exact absurd h (List.not_mem_nil p)
  · exact h

theorem insertSorted_perm_of_not_mem {k : String} {v : Json} :
    ∀ l : List (String × Json), (∀ q ∈ l, q.1 ≠ k) →
      (insertSorted k v l).Perm ((k, v) :: l) := by
  intro l
  induction l with
  | nil => exact fun _ => List.Perm.refl _
  | cons q rest ih =>
    obtain ⟨qk, qv⟩ := q
    intro hk
    unfold insertSorted
    by_cases h1 : strLt k qk = true
    · rw [if_pos h1]
    · rw [if_neg h1]
      by_cases h2 : k = qk
      · exact absurd h2.symm (hk (qk, qv) (List.mem_cons_self _ _))
      · rw [if_neg h2]
        refine List.Perm.trans (List.Perm.cons _ (ih ?_)) (List.Perm.swap _ _ _)
        intro q' hq'
        exact hk q' (List.mem_cons_of_mem _ hq')

theorem foldl_insert_perm :
    ∀ (l acc : List (String × Json)),
      ((acc ++ l).map Prod.fst).Nodup →
      (List.foldl (fun acc q => insertSorted q.1 q.2 acc) acc l).Perm (acc ++ l) := by
  intro l
  induction l with
  | nil =>
    intro acc h
    rw [List.append_nil]
    exact List.Perm.refl _
  | cons q rest ih =>
    obtain ⟨qk, qv⟩ := q
    intro acc h
    have hkeys : (acc.map Prod.fst ++ (qk :: rest.map Prod.fst)).Nodup := by
      simpa using h
    rcases List.nodup_append.mp hkeys with ⟨hn1, hn2, hdisj⟩
    have hknotin : ∀ p ∈ acc, p.1 ≠ qk := by
      intro p hp hEq
      exact hdisj (hEq ▸ List.mem_map_of_mem Prod.fst hp) (List.mem_cons_self _ _)
    have hperm1 : (insertSorted qk qv acc).Perm ((qk, qv) :: acc) :=
      insertSorted_perm_of_not_mem acc hknotin
    have hkeysmid : (acc.map Prod.fst ++ (qk :: rest.map Prod.fst)).Perm
        (qk :: (acc.map Prod.fst ++ rest.map Prod.fst)) := List.perm_middle
    have hnodmid : (qk :: (acc.map Prod.fst ++ rest.map Prod.fst)).Nodup :=
      hkeysmid.nodup_iff.mp hkeys
    have hstep : ((insertSorted qk qv acc ++ rest).map Prod.fst).Nodup := by
      have hpermfst : ((insertSorted qk qv acc ++ rest).map Prod.fst).Perm
          ((((qk, qv) :: acc) ++ rest).map Prod.fst) :=
        (hperm1.append_right rest).map Prod.fst
      apply hpermfst.nodup_iff.mpr
      simpa using hnodmid
    have hmain := ih (insertSorted qk qv acc) hstep
    refine hmain.trans ?_
    refine List.Perm.trans (hperm1.append_right rest) ?_
    exact List.perm_middle.symm

theorem insertAll_perm {l : List (String × Json)}
    (h : (l.map Prod.fst).Nodup) : (insertAll l).Perm l := by
  have h2 := foldl_insert_perm l [] (by simpa using h)
  simpa using h2

theorem keys_nodup_of_pairwise {l : List (String × Json)}
    (h : List.Pairwise keyLt l) : (l.map Prod.fst).Nodup := by
  have h2 : (l.map Prod.fst).Pairwise (fun a b => strLt a b = true) :=
    (List.pairwise_map).mpr (h.imp (fun hab => hab))
  refine h2.imp ?_
  intro a b hab hEq
  rw [hEq, strLt_irrefl] at hab
  exact Bool.noConfusion hab

theorem insertAll_eq_of_perm {l l' : List (String × Json)} (hperm : l.Perm l')
    (h : (l.map Prod.fst).Nodup) : insertAll l = insertAll l' := by
  have h' : (l'.map Prod.fst).Nodup := ((hperm.map Prod.fst).nodup_iff).mp h
  have p1 : (insertAll l).Perm (insertAll l') :=
    ((insertAll_perm h).trans hperm).trans (insertAll_perm h').symm
  haveI := keyLt_antisymm
  exact List.eq_of_perm_of_sorted p1 (insertAll_pairwise l) (insertAll_pairwise l')

theorem insertAll_eq_self_of_pairwise {m : List (String × Json)}
    (h : List.Pairwise keyLt m) : insertAll m = m := by
  have h2 := insertAll_perm (keys_nodup_of_pairwise h)
  haveI := keyLt_antisymm
  exact List.eq_of_perm_of_sorted h2 (insertAll_pairwise m) h

end AnsibleFacts

namespace AnsibleFacts

/-! ## Idempotence and sorted output of sort_json_value -/

theorem sortJsonList_eq_map (xs : List Json) :
    sortJsonList xs = xs.map sort_json_value := by
  induction xs with
  | nil => rfl
  | cons x xs ih =>
    rw [List.map_cons, ← ih]
    rfl

theorem sortJsonFields_eq_map (fs : List (String × Json)) :
    sortJsonFields fs = fs.map (fun p => (p.1, sort_json_value p.2)) := by
  induction fs with
  | nil => rfl
  | cons p rest ih =>
    rw [List.map_cons, ← ih]
    rfl

theorem map_eq_self_of_mem {α : Type} {m : List α} {f : α → α}
    (h : ∀ p ∈ m, f p = p) : m.map f = m := by
  induction m with
  | nil => rfl
  | cons x xs ih =>
    rw [List.map_cons, h x (List.mem_cons_self _ _),
      ih (fun p hp => h p (List.mem_cons_of_mem _ hp))]

theorem sizeOf_val_lt_of_mem {fs : List (String × Json)} {p : String × Json}
    (hp : p ∈ fs) : sizeOf p.2 < sizeOf fs := by
  have h1 := List.sizeOf_lt_of_mem hp
  obtain ⟨k, v⟩ := p
  have h2 : sizeOf (k, v) = 1 + sizeOf k + sizeOf v := rfl
  simp only at h1 ⊢
  omega

theorem sort_idem_bounded : ∀ (n : Nat) (x : Json), sizeOf x ≤ n →
    sort_json_value (sort_json_value x) = sort_json_value x := by
  intro n
  induction n with
  | zero =>
    intro x hx
    exact absurd hx (by cases x <;> simp)
  | succ n ih =>
    intro x hx
    cases x with
    | null => rfl
    | bool b => rfl
    | num m => rfl
    | str s => rfl
    | arr xs =>
      show Json.arr (sortJsonList (sortJsonList xs)) = Json.arr (sortJsonList xs)
      rw [sortJsonList_eq_map, sortJsonList_eq_map]
      congr 1
      apply map_eq_self_of_mem
      intro p hp
      rcases List.mem_map.mp hp with ⟨y, hy, rfl⟩
      have hs1 := List.sizeOf_lt_of_mem hy
      have hs2 : sizeOf (Json.arr xs) = 1 + sizeOf xs := by simp
      exact ih y (by omega)
    | obj fs =>
      show Json.obj (insertAll (sortJsonFields (insertAll (sortJsonFields fs))))
          = Json.obj (insertAll (sortJsonFields fs))
      congr 1
      have hfix : sortJsonFields (insertAll (sortJsonFields fs))
          = insertAll (sortJsonFields fs) := by
        rw [sortJsonFields_eq_map]
        apply map_eq_self_of_mem
        intro p hp
        have hmem : p ∈ sortJsonFields fs := mem_insertAll hp
        rw [sortJsonFields_eq_map] at hmem
        rcases List.mem_map.mp hmem with ⟨q, hq, rfl⟩
        have hs1 := sizeOf_val_lt_of_mem hq
        have hs2 : sizeOf (Json.obj fs) = 1 + sizeOf fs := by simp
        show (q.1, sort_json_value (sort_json_value q.2)) = (q.1, sort_json_value q.2)
        rw [ih q.2 (by omega)]
      rw [hfix]
      exact insertAll_eq_self_of_pairwise (insertAll_pairwise _)

theorem strictSortedKeys_of_pairwise : ∀ l : List String,
    List.Pairwise (fun a b => strLt a b = true) l → strictSortedKeys l = true
  | [], _ => rfl
  | [_], _ => rfl
  | a :: b :: rest, h => by
    rcases List.pairwise_cons.mp h with ⟨h1, h2⟩
    show (strLt a b && strictSortedKeys (b :: rest)) = true
    rw [h1 b (List.mem_cons_self _ _), strictSortedKeys_of_pairwise (b :: rest) h2]
    rfl

theorem objKeysSortedList_of_forall {xs : List Json}
    (h : ∀ x ∈ xs, objKeysSorted x = true) : objKeysSortedList xs = true := by
  induction xs with
  | nil => rfl
  | cons y ys ih =>
    show (objKeysSorted y && objKeysSortedList ys) = true
    rw [h y (List.mem_cons_self _ _), ih (fun x hx => h x (List.mem_cons_of_mem _ hx))]
    rfl

theorem objKeysSortedFields_of_forall {fs : List (String × Json)}
    (h : ∀ p ∈ fs, objKeysSorted p.2 = true) : objKeysSortedFields fs = true := by
  induction fs with
  | nil => rfl
  | cons q rest ih =>
    show (objKeysSorted q.2 && objKeysSortedFields rest) = true
    rw [h q (List.mem_cons_self _ _), ih (fun p hp => h p (List.mem_cons_of_mem _ hp))]
    rfl

theorem sort_sorted_bounded : ∀ (n : Nat) (x : Json), sizeOf x ≤ n →
    objKeysSorted (sort_json_value x) = true := by
  intro n
  induction n with
  | zero =>
    intro x hx
    exact absurd hx (by cases x <;> simp)
  | succ n ih =>
    intro x hx
    cases x with
    | null => rfl
    | bool b => rfl
    | num m => rfl
    | str s => rfl
    | arr xs =>
      show objKeysSortedList (sortJsonList xs) = true
      rw [sortJsonList_eq_map]
      apply objKeysSortedList_of_forall
      intro y hy
      rcases List.mem_map.mp hy with ⟨z, hz, rfl⟩
      have hs1 := List.sizeOf_lt_of_mem hz
      have hs2 : sizeOf (Json.arr xs) = 1 + sizeOf xs := by simp
      exact ih z (by omega)
    | obj fs =>
      show (strictSortedKeys ((insertAll (sortJsonFields fs)).map Prod.fst) &&
          objKeysSortedFields (insertAll (sortJsonFields fs))) = true
      have hkeys : strictSortedKeys ((insertAll (sortJsonFields fs)).map Prod.fst) = true := by
        apply strictSortedKeys_of_pairwise
        exact (List.pairwise_map).mpr ((insertAll_pairwise _).imp (fun hk => hk))
      have hvals : objKeysSortedFields (insertAll (sortJsonFields fs)) = true := by
        apply objKeysSortedFields_of_forall
        intro p hp
        have hmem : p ∈ sortJsonFields fs := mem_insertAll hp
        rw [sortJsonFields_eq_map] at hmem
        rcases List.mem_map.mp hmem with ⟨q, hq, rfl⟩
        have hs1 := sizeOf_val_lt_of_mem hq
        have hs2 : sizeOf (Json.obj fs) = 1 + sizeOf fs := by simp
        exact ih q.2 (by omega)
      rw [hkeys, hvals]
      rfl

end AnsibleFacts

namespace AnsibleFacts

/-! ## Well-formedness helpers -/

theorem wfJsonList_mem {xs : List Json} (h : wfJsonList xs = true) :
    ∀ x ∈ xs, wfJson x = true := by
  induction xs with
  | nil => intro x hx; cases hx
  | cons y ys ih =>
    have h' : (wfJson y && wfJsonList ys) = true := h
    rw [Bool.and_eq_true] at h'
    rcases h' with ⟨h1, h2⟩
    intro x hx
    rcases List.mem_cons.mp hx with rfl | hx'
    · exact h1
    · exact ih h2 x hx'

theorem wfJsonFields_mem {fs : List (String × Json)} (h : wfJsonFields fs = true) :
    ∀ p ∈ fs, wfJson p.2 = true := by
  induction fs with
  | nil => intro p hp; cases hp
  | cons q rest ih =>
    have h' : (wfJson q.2 && wfJsonFields rest) = true := h
    rw [Bool.and_eq_true] at h'
    rcases h' with ⟨h1, h2⟩
    intro p hp
    rcases List.mem_cons.mp hp with rfl | hp'
    · exact h1
    · exact ih h2 p hp'

theorem nodup_of_nodupKeysB : ∀ {l : List String}, nodupKeysB l = true → l.Nodup := by
  intro l
  induction l with
  | nil => intro _; exact List.nodup_nil
  | cons k rest ih =>
    intro h
    have h' : (!(decide (k ∈ rest)) && nodupKeysB rest) = true := h
    rw [Bool.and_eq_true] at h'
    rcases h' with ⟨h1, h2⟩
    refine List.nodup_cons.mpr ⟨?_, ih h2⟩
    intro hk
    rw [decide_eq_true hk] at h1
    exact Bool.noConfusion h1

/-! ## Insertion-order invariance and content preservation -/

theorem fieldsPermEq_keys : ∀ {fs hs : List (String × Json)}, FieldsPermEq fs hs →
    fs.map Prod.fst = hs.map Prod.fst := by
  intro fs
  induction fs with
  | nil =>
    intro hs h
    cases h
    rfl
  | cons p rest ih =>
    obtain ⟨pk, pv⟩ := p
    intro hs h
    cases h with
    | cons hvw hrest =>
      simp only [List.map_cons]
      rw [ih hrest]

theorem sortJsonList_eq_of_arrPermEq : ∀ {xs ys : List Json}, ArrPermEq xs ys →
    (∀ x ∈ xs, ∀ y, KeyPermEq x y → wfJson x = true →
      sort_json_value x = sort_json_value y) →
    wfJsonList xs = true → sortJsonList xs = sortJsonList ys := by
  intro xs
  induction xs with
  | nil =>
    intro ys h _ _
    cases h
    rfl
  | cons x rest ih =>
    intro ys h hpt hwf
    cases h with
    | cons hxy hrest =>
      have hwf' : (wfJson x && wfJsonList rest) = true := hwf
      rw [Bool.and_eq_true] at hwf'
      simp only [sortJsonList]
      rw [hpt x (List.mem_cons_self _ _) _ hxy hwf'.1,
        ih hrest (fun z hz => hpt z (List.mem_cons_of_mem _ hz)) hwf'.2]

theorem sortJsonFields_eq_of_fieldsPermEq : ∀ {fs hs : List (String × Json)},
    FieldsPermEq fs hs →
    (∀ p ∈ fs, ∀ w, KeyPermEq p.2 w → wfJson p.2 = true →
      sort_json_value p.2 = sort_json_value w) →
    wfJsonFields fs = true → sortJsonFields fs = sortJsonFields hs := by
  intro fs
  induction fs with
  | nil =>
    intro hs h _ _
    cases h
    rfl
  | cons p rest ih =>
    obtain ⟨pk, pv⟩ := p
    intro hs h hpt hwf
    cases h with
    | cons hvw hrest =>
      have hwf' : (wfJson pv && wfJsonFields rest) = true := hwf
      rw [Bool.and_eq_true] at hwf'
      simp only [sortJsonFields]
      rw [hpt (pk, pv) (List.mem_cons_self _ _) _ hvw hwf'.1,
        ih hrest (fun q hq => hpt q (List.mem_cons_of_mem _ hq)) hwf'.2]

theorem sort_eq_of_keyPermEq_bounded : ∀ (n : Nat) (x y : Json), sizeOf x ≤ n →
    KeyPermEq x y → wfJson x = true → sort_json_value x = sort_json_value y := by
  intro n
  induction n with
  | zero =>
    intro x y hx _ _
    exact absurd hx (by cases x <;> simp)
  | succ n ih =>
    intro x y hx hkpe hwf
    cases hkpe with
    | null => rfl
    | bool b => rfl
    | num m => rfl
    | str s => rfl
    | @arr xs ys ha =>
      show Json.arr (sortJsonList xs) = Json.arr (sortJsonList ys)
      congr 1
      apply sortJsonList_eq_of_arrPermEq ha
      · intro z hz w hzw hwz
        have hs1 := List.sizeOf_lt_of_mem hz
        have hs2 : sizeOf (Json.arr xs) = 1 + sizeOf xs := by simp
        exact ih z w (by omega) hzw hwz
      · exact hwf
    | @obj fs hs gs hfe hperm =>
      show Json.obj (insertAll (sortJsonFields fs)) = Json.obj (insertAll (sortJsonFields gs))
      congr 1
      have hwf' : (nodupKeysB (fs.map Prod.fst) && wfJsonFields fs) = true := hwf
      rw [Bool.and_eq_true] at hwf'
      rcases hwf' with ⟨hnd, hwfF⟩
      have hstep1 : sortJsonFields fs = sortJsonFields hs := by
        apply sortJsonFields_eq_of_fieldsPermEq hfe
        · intro p hp w hpw hwp
          have hs1 := sizeOf_val_lt_of_mem hp
          have hs2 : sizeOf (Json.obj fs) = 1 + sizeOf fs := by simp
          exact ih p.2 w (by omega) hpw hwp
        · exact hwfF
      have hstep2 : (sortJsonFields hs).Perm (sortJsonFields gs) := by
        rw [sortJsonFields_eq_map, sortJsonFields_eq_map]
        exact hperm.map _
      have hnodup : ((sortJsonFields hs).map Prod.fst).Nodup := by
        rw [sortJsonFields_eq_map, List.map_map]
        have h2 : (Prod.fst ∘ fun p : String × Json => (p.1, sort_json_value p.2))
            = (Prod.fst : String × Json → String) := rfl
        rw [h2, ← fieldsPermEq_keys hfe]
        exact nodup_of_nodupKeysB hnd
      rw [hstep1]
      exact insertAll_eq_of_perm hstep2 hnodup

theorem arrPermEq_self_sort {xs : List Json}
    (h : ∀ x ∈ xs, KeyPermEq x (sort_json_value x)) : ArrPermEq xs (sortJsonList xs) := by
  induction xs with
  | nil => exact ArrPermEq.nil
  | cons x rest ih =>
    exact ArrPermEq.cons (h x (List.mem_cons_self _ _))
      (ih (fun q hq => h q (List.mem_cons_of_mem _ hq)))

theorem fieldsPermEq_self_sort {fs : List (String × Json)}
    (h : ∀ p ∈ fs, KeyPermEq p.2 (sort_json_value p.2)) :
    FieldsPermEq fs (sortJsonFields fs) := by
  induction fs with
  | nil => exact FieldsPermEq.nil
  | cons p rest ih =>
    obtain ⟨k, v⟩ := p
    exact FieldsPermEq.cons (h (k, v) (List.mem_cons_self _ _))
      (ih (fun q hq => h q (List.mem_cons_of_mem _ hq)))

theorem keyPermEq_sort_bounded : ∀ (n : Nat) (x : Json), sizeOf x ≤ n →
    wfJson x = true → KeyPermEq x (sort_json_value x) := by
  intro n
  induction n with
  | zero =>
    intro x hx _
    exact absurd hx (by cases x <;> simp)
  | succ n ih =>
    intro x hx hwf
    cases x with
    | null => exact KeyPermEq.null
    | bool b => exact KeyPermEq.bool b
    | num m => exact KeyPermEq.num m
    | str s => exact KeyPermEq.str s
    | arr xs =>
      apply KeyPermEq.arr
      apply arrPermEq_self_sort
      intro z hz
      have hs1 := List.sizeOf_lt_of_mem hz
      have hs2 : sizeOf (Json.arr xs) = 1 + sizeOf xs := by simp
      exact ih z (by omega) (wfJsonList_mem hwf z hz)
    | obj fs =>
      have hwf' : (nodupKeysB (fs.map Prod.fst) && wfJsonFields fs) = true := hwf
      rw [Bool.and_eq_true] at hwf'
      rcases hwf' with ⟨hnd, hwfF⟩
      refine @KeyPermEq.obj fs (sortJsonFields fs) _ ?_ ?_
      · apply fieldsPermEq_self_sort
        intro p hp
        have hs1 := sizeOf_val_lt_of_mem hp
        have hs2 : sizeOf (Json.obj fs) = 1 + sizeOf fs := by simp
        exact ih p.2 (by omega) (wfJsonFields_mem hwfF p hp)
      · have hnodup : ((sortJsonFields fs).map Prod.fst).Nodup := by
          rw [sortJsonFields_eq_map, List.map_map]
          have h2 : (Prod.fst ∘ fun p : String × Json => (p.1, sort_json_value p.2))
              = (Prod.fst : String × Json → String) := rfl
          rw [h2]
          exact nodup_of_nodupKeysB hnd
        exact (insertAll_perm hnodup).symm

/-! ## Claim theorems for the normalizer -/

/-- C6: `sort_json_value` is idempotent on every value, emits object keys in
strictly ascending lexicographic byte order recursively, maps arrays in place
preserving element order, passes scalars through unchanged, and produces equal
results on any two well-formed values differing only in object-key insertion
order. -/
theorem sort_json_value_spec :
    (∀ x, sort_json_value (sort_json_value x) = sort_json_value x) ∧
    (∀ x, objKeysSorted (sort_json_value x) = true) ∧
    (∀ xs, sort_json_value (Json.arr xs) = Json.arr (xs.map sort_json_value)) ∧
    (∀ n, sort_json_value (Json.num n) = Json.num n) ∧
    (∀ s, sort_json_value (Json.str s) = Json.str s) ∧
    (∀ b, sort_json_value (Json.bool b) = Json.bool b) ∧
    sort_json_value Json.null = Json.null ∧
    (∀ x y, wfJson x = true → KeyPermEq x y →
      sort_json_value x = sort_json_value y) := by
  refine ⟨fun x => sort_idem_bounded (sizeOf x) x (Nat.le_refl _),
    fun x => sort_sorted_bounded (sizeOf x) x (Nat.le_refl _),
    fun xs => ?_, fun n => rfl, fun s => rfl, fun b => rfl, rfl,
    fun x y hwf hkpe => sort_eq_of_keyPermEq_bounded (sizeOf x) x y (Nat.le_refl _) hkpe hwf⟩
  show Json.arr (sortJsonList xs) = Json.arr (xs.map sort_json_value)
  rw [sortJsonList_eq_map]

/-- C6 witness. -/
theorem sort_json_value_spec_witness :
    wfJson (Json.obj [("b", Json.num 1), ("a", Json.null)]) = true ∧
    KeyPermEq (Json.obj [("b", Json.num 1), ("a", Json.null)])
      (Json.obj [("a", Json.null), ("b", Json.num 1)]) ∧
    sort_json_value (Json.obj [("b", Json.num 1), ("a", Json.null)])
      = sort_json_value (Json.obj [("a", Json.null), ("b", Json.num 1)]) :=
  ⟨rfl,
   KeyPermEq.obj
     (FieldsPermEq.cons (KeyPermEq.num 1) (FieldsPermEq.cons KeyPermEq.null FieldsPermEq.nil))
     (List.Perm.swap ("a", Json.null) ("b", Json.num 1) []),
   sort_json_value_spec.2.2.2.2.2.2.2
     (Json.obj [("b", Json.num 1), ("a", Json.null)])
     (Json.obj [("a", Json.null), ("b", Json.num 1)]) rfl
     (KeyPermEq.obj
       (FieldsPermEq.cons (KeyPermEq.num 1) (FieldsPermEq.cons KeyPermEq.null FieldsPermEq.nil))
       (List.Perm.swap ("a", Json.null) ("b", Json.num 1) []))⟩

/-- C10: on every well-formed value (duplicate-free object keys, as in a
`serde_json::Map`), normalization is a pure reordering with no data loss: the
output is `KeyPermEq`-related to the input (same structure, object fields
permuted with values recursively normalized), the sorted object fields are
exactly a permutation of the recursively normalized input fields (no key
dropped, added, or duplicated), and arrays map elementwise keeping length and
order. -/
theorem sort_json_value_preserves_content (x : Json) (hwf : wfJson x = true) :
    KeyPermEq x (sort_json_value x) ∧
    (∀ fs, x = Json.obj fs →
      (insertAll (sortJsonFields fs)).Perm
        (fs.map (fun p => (p.1, sort_json_value p.2)))) ∧
    (∀ xs, x = Json.arr xs → sort_json_value x = Json.arr (xs.map sort_json_value)) := by
  refine ⟨keyPermEq_sort_bounded (sizeOf x) x (Nat.le_refl _) hwf, ?_, ?_⟩
  · intro fs hfs
    subst hfs
    have hwf' : (nodupKeysB (fs.map Prod.fst) && wfJsonFields fs) = true := hwf
    rw [Bool.and_eq_true] at hwf'
    rcases hwf' with ⟨hnd, _⟩
    rw [sortJsonFields_eq_map]
    apply insertAll_perm
    rw [List.map_map]
    have h2 : (Prod.fst ∘ fun p : String × Json => (p.1, sort_json_value p.2))
        = (Prod.fst : String × Json → String) := rfl
    rw [h2]
    exact nodup_of_nodupKeysB hnd
  · intro xs hxs
    subst hxs
    show Json.arr (sortJsonList xs) = Json.arr (xs.map sort_json_value)
    rw [sortJsonList_eq_map]

/-- C10 witness. -/
theorem sort_json_value_preserves_content_witness :
    wfJson (Json.obj [("b", Json.num 1), ("a", Json.null)]) = true ∧
    KeyPermEq (Json.obj [("b", Json.num 1), ("a", Json.null)])
      (sort_json_value (Json.obj [("b", Json.num 1), ("a", Json.null)])) ∧
    (insertAll (sortJsonFields [("b", Json.num 1), ("a", Json.null)])).Perm
      ([("b", Json.num 1), ("a", Json.null)].map (fun p => (p.1, sort_json_value p.2))) :=
  ⟨rfl,
   (sort_json_value_preserves_content (Json.obj [("b", Json.num 1), ("a", Json.null)]) rfl).1,
   (sort_json_value_preserves_content (Json.obj [("b", Json.num 1), ("a", Json.null)]) rfl).2.1
     [("b", Json.num 1), ("a", Json.null)] rfl⟩

end AnsibleFacts
